import Mathlib

/-!
Verification of the ff3-cli account importer (`ff3_cli.py`).

The Python source is shallowly embedded: Python strings are Lean `String`s,
string routines (`split`, `splitlines`, substring membership, `join`) are
modelled over `List Char`, Python exceptions are an explicit `PyError`
value in `Except`, and the mutable objects (`FF3Operator`, `GCTranslator`)
are threaded as explicit state.
-/

deriving instance DecidableEq for Except

/-- Python exceptions raised (or raisable) by the code paths modelled here. -/
inductive PyError where
  | keyError (key : String)
  | notImplementedError
  | assertionError
  | jsonDecodeError
  | httpError (status : Nat)
deriving DecidableEq, Repr

/-! ### Python string primitives, modelled over `List Char` -/

/-- `str.split(sep)` for a one-character separator: splits on every
occurrence of `c`, keeping empty chunks (`"".split(":") == [""]`). -/
def splitCh (c : Char) : List Char → List (List Char)
  | [] => [[]]
  | x :: xs =>
    if x = c then [] :: splitCh c xs
    else
      match splitCh c xs with
      | [] => [[x]]
      | y :: ys => (x :: y) :: ys

/-- `sep.join(parts)` for a one-character separator. -/
def joinCh (c : Char) : List (List Char) → List Char
  | [] => []
  | [x] => x
  | x :: y :: ys => x ++ c :: joinCh c (y :: ys)

/-- Python `pat in s` substring membership on character lists. -/
def containsL (l pat : List Char) : Bool :=
  l.tails.any (fun t => pat.isPrefixOf t)

/-- Python `pat in s` on strings. -/
def pyContains (s pat : String) : Bool := containsL s.data pat.data

/-- Python `s.split(sep)` for a one-character separator, on strings. -/
def pySplit (c : Char) (s : String) : List String :=
  (splitCh c s.data).map (fun l => String.mk l)

/-- Python `str.splitlines()` restricted to `\n` line endings (the only
terminator the program ever writes): split on newlines, dropping the
empty chunk a trailing newline would produce; `"".splitlines() == []`. -/
def pySplitLines (s : String) : List String :=
  if s.data = [] then []
  else
    (if (splitCh '\n' s.data).getLast? = some [] then (splitCh '\n' s.data).dropLast
     else splitCh '\n' s.data).map (fun l => String.mk l)

/-! ### API client: `Client.get_paged` (src/ff3_cli.py lines 36-46) -/

/-- The two fields of a paged JSON response that `get_paged` reads:
`res["data"]` and `res["meta"]["pagination"]["total_pages"]`. -/
structure Page (α : Type) where
  data : List α
  total_pages : Nat
deriving DecidableEq, Repr

/-- The body of `get_paged`'s `for i in range(1, 100)` loop. `fuel` is the
number of loop iterations remaining (99 at the start), `i` the current page
number. Each iteration extends the output with `res["data"]` and then
breaks unless `res["meta"]["pagination"]["total_pages"] == i`. -/
def get_paged_go (resp : Nat → Page α) : Nat → Nat → List α
  | 0, _ => []
  | fuel + 1, i =>
    (resp i).data ++
      (if (resp i).total_pages = i then get_paged_go resp fuel (i + 1) else [])

/-- `Client.get_paged`: starts at page 1 with a fixed iteration ceiling of
99 requests. `resp i` models the decoded JSON answer the server gives to
the request with `params["page"] == i`. -/
def get_paged (resp : Nat → Page α) : List α := get_paged_go resp 99 1

/-- The collection the spec describes: the concatenation of the `data`
arrays of pages 1 through `t`. -/
def pagesConcat (resp : Nat → Page α) (t : Nat) : List α :=
  ((List.range t).map (fun k => (resp (k + 1)).data)).flatten

/-- A two-page server: every response reports `total_pages = 2`, page `i`
carries the single datum `10 * i`. -/
def respC1 : Nat → Page Nat := fun i => { data := [10 * i], total_pages := 2 }

/-- C1 counterexample input: a server with two pages. The code breaks as
soon as `total_pages != i`, i.e. already after page 1, so page 2's data is
lost; the claim demands pages 1 and 2 concatenated. -/
theorem get_paged_drops_pages :
    (respC1 1).total_pages = 2 ∧
    get_paged respC1 = [10] ∧
    pagesConcat respC1 2 = [10, 20] ∧
    get_paged respC1 ≠ pagesConcat respC1 2 := by
  refine ⟨rfl, ?_, rfl, ?_⟩ <;> decide

/-! ### `json.dumps({"name": s})` (used at src/ff3_cli.py line 200)

Python's `json.dumps` with its defaults (`ensure_ascii=True`): `"`, `\`
and the short control escapes get two-character escapes, every other
character outside printable ASCII `0x20..0x7e` becomes `\uXXXX` (one
escape for BMP scalars, a surrogate pair above `0xFFFF`), and printable
ASCII is emitted verbatim. -/

/-- Lowercase hexadecimal digit, as `format(n, "04x")` produces. -/
def hexDig (n : Nat) : Char :=
  if n < 10 then Char.ofNat (48 + n) else Char.ofNat (87 + n)

/-- Four lowercase hex digits of a number below `0x10000`. -/
def hex4 (n : Nat) : List Char :=
  [hexDig (n / 4096 % 16), hexDig (n / 256 % 16), hexDig (n / 16 % 16), hexDig (n % 16)]

/-- `json.dumps` escaping of one character. -/
def escChar (c : Char) : List Char :=
  if c = '"' then ['\\', '"']
  else if c = '\\' then ['\\', '\\']
  else if c = '\n' then ['\\', 'n']
  else if c = '\r' then ['\\', 'r']
  else if c = '\t' then ['\\', 't']
  else if c.toNat = 8 then ['\\', 'b']
  else if c.toNat = 12 then ['\\', 'f']
  else if 0x20 ≤ c.toNat ∧ c.toNat ≤ 0x7e then [c]
  else if c.toNat ≤ 0xffff then '\\' :: 'u' :: hex4 c.toNat
  else
    ('\\' :: 'u' :: hex4 (0xD800 + (c.toNat - 0x10000) / 0x400)) ++
      ('\\' :: 'u' :: hex4 (0xDC00 + (c.toNat - 0x10000) % 0x400))

/-- `json.dumps` escaping of a whole string. -/
def escapeJson (s : String) : List Char := s.data.flatMap escChar

/-- `json.dumps({"name": s})`: with the default separators this is exactly
`{"name": "<escaped s>"}`. -/
def jsonDumpsName (s : String) : String :=
  String.mk ("\x7b\"name\": \"".data ++ escapeJson s ++ "\"\x7d".data)

/-! ### `GCTranslator.convert_account` (src/ff3_cli.py lines 156-234) -/

/-- A GnuCash CSV row (`GCAccount`, lines 237-253). Python's dataclass
equality compares all fields; `__hash__` hashes only `name_full`. -/
structure GCAccount where
  type_ : String
  name_full : String
  name : String
  code : String := ""
  description : String
  color : String := ""
  notes : String := ""
  symbol : String
  namespace_ : String := ""
  hidden : String := ""
  tax_info : String := ""
  placeholder : String := ""
deriving DecidableEq, Repr

/-- A destination account record (`FF3Account`, lines 256-274), with the
pydantic field defaults. -/
structure FF3Account where
  type_ : String
  id_ : Int := -1
  name : String := ""
  role : Option String := none
  currency_code : String := "EUR"
  include_net_worth : Bool := true
  notes : Option String := some ""
  _meta : List (String × String) := []
deriving DecidableEq, Repr

/-- The `typeMap` dict literal (lines 157-165). -/
def typeMap : List (String × String) :=
  [("ASSET", "asset"), ("CASH", "asset"), ("BANK", "asset"), ("EXPENSE", "expense"),
   ("INCOME", "revenue"), ("LIABILITY", "liability"), ("CREDIT", "asset")]

/-- The `roleMap` dict literal (lines 166-174). -/
def roleMap : List (String × String) :=
  [("ASSET", "defaultAsset"), ("CASH", "cashWalletAsset"), ("BANK", "defaultAsset"),
   ("EXPENSE", "expense"), ("INCOME", "revenue"), ("LIABILITY", "liability"),
   ("CREDIT", "ccAsset")]

/-- The tuple of skipped top-level names (lines 176-184), with the
duplicated `"Liabilities"` entry kept as in the source. -/
def topLevelNames : List String :=
  ["Assets", "Liabilities", "Liabilities", "Income", "Expenses", "Current Assets",
   "Credit Card"]

/-- The `description` f-string (lines 202-209) appended to the notes:
description, the import marker, and the `--meta--` block. -/
def mkNotes (description meta : String) : String :=
  description ++ "\n\nImported from GnuCash\n\n--meta--\n" ++ meta ++ "\n--meta-end--\n"

/-- The translation map `GCTranslator.account_map`, as an insertion-ordered
association list. Python dict membership (`acc_gc not in self.account_map`)
tests key equality. -/
abbrev TransMap := List (GCAccount × FF3Account)

/-- `GCTranslator.convert_account`. Returns the Python result (`None`, the
new record, or a raised exception) together with the state of
`self.account_map` after the call. -/
def convert_account (st : TransMap) (acc_gc : GCAccount) :
    Except PyError (Option FF3Account) × TransMap :=
  if topLevelNames.contains acc_gc.name then (.ok none, st)
  else if acc_gc.type_ = "EQUITY" then (.ok none, st)
  else
    match typeMap.lookup acc_gc.type_ with
    | none => (.error (.keyError acc_gc.type_), st)
    | some new_type =>
      let subname := splitCh ':' acc_gc.name_full.data
      if subname.length ≤ 1 then (.ok none, st)
      else
        let name := String.mk (joinCh ':' (subname.drop 1))
        let meta := jsonDumpsName acc_gc.name_full
        let description := mkNotes acc_gc.description meta
        let built : Except PyError FF3Account :=
          if new_type = "asset" then
            match roleMap.lookup acc_gc.type_ with
            | none => .error (.keyError acc_gc.type_)
            | some r =>
              .ok { type_ := new_type, name := name, currency_code := acc_gc.symbol,
                    role := some r, notes := some description }
          else if new_type = "liability" then .error .notImplementedError
          else
            .ok { type_ := new_type, name := name, currency_code := acc_gc.symbol,
                  notes := some description }
        match built with
        | .error e => (.error e, st)
        | .ok acc_ff3 =>
          if st.any (fun p => p.1 == acc_gc) then (.error .assertionError, st)
          else (.ok (some acc_ff3), st ++ [(acc_gc, acc_ff3)])

/-- A sequence of `convert_account` calls (the import loop, lines 340-343),
aborting at the first raised exception. -/
def convertAll (st : TransMap) : List GCAccount → Except PyError TransMap
  | [] => .ok st
  | a :: as =>
    match convert_account st a with
    | (.error e, _) => .error e
    | (.ok _, st') => convertAll st' as

/-! ### Basic facts about the string splitting primitives -/

theorem splitCh_cons_sep (c : Char) (xs : List Char) :
    splitCh c (c :: xs) = [] :: splitCh c xs := by
  simp [splitCh]

theorem splitCh_cons_other (c x : Char) (xs y : List Char) (ys : List (List Char))
    (hx : x ≠ c) (h : splitCh c xs = y :: ys) :
    splitCh c (x :: xs) = (x :: y) :: ys := by
  simp only [splitCh, if_neg hx, h]

theorem splitCh_ne_nil (c : Char) (l : List Char) : splitCh c l ≠ [] := by
  induction l with
  | nil => simp [splitCh]
  | cons x xs ih =>
    by_cases hx : x = c
    · subst hx
      simp [splitCh_cons_sep]
    · rcases h : splitCh c xs with _ | ⟨y, ys⟩
      · exact absurd h ih
      · simp [splitCh_cons_other c x xs y ys hx h]

/-- Inversion: split of a cons, with the split of the tail exposed. -/
theorem splitCh_cons_eq (c x : Char) (xs : List Char) :
    ∃ y ys, splitCh c xs = y :: ys ∧
      splitCh c (x :: xs) = if x = c then [] :: y :: ys else (x :: y) :: ys := by
  rcases h : splitCh c xs with _ | ⟨y, ys⟩
  · exact absurd h (splitCh_ne_nil c xs)
  · refine ⟨y, ys, rfl, ?_⟩
    by_cases hx : x = c
    · subst hx
      rw [if_pos rfl, splitCh_cons_sep, h]
    · rw [if_neg hx, splitCh_cons_other c x xs y ys hx h]

/-- A split has a single chunk exactly when the separator does not occur. -/
theorem splitCh_length_le_one_iff (c : Char) (l : List Char) :
    (splitCh c l).length ≤ 1 ↔ c ∉ l := by
  induction l with
  | nil => simp [splitCh]
  | cons x xs ih =>
    obtain ⟨y, ys, htl, hcons⟩ := splitCh_cons_eq c x xs
    rw [htl] at ih
    rw [hcons]
    by_cases hx : x = c
    · subst hx
      simp
    · simp only [if_neg hx, List.length_cons] at ih ⊢
      simp only [List.mem_cons, not_or, ih]
      constructor
      · intro hni
        exact ⟨fun hcx => hx hcx.symm, hni⟩
      · intro hni
        exact hni.2

/-- Splitting distributes over an explicit separator occurrence. -/
theorem splitCh_append_cons (c : Char) (a b : List Char) :
    splitCh c (a ++ c :: b) = splitCh c a ++ splitCh c b := by
  induction a with
  | nil =>
    rw [List.nil_append, splitCh_cons_sep]
    rfl
  | cons x xs ih =>
    obtain ⟨y, ys, htl, hcons⟩ := splitCh_cons_eq c x xs
    rw [List.cons_append]
    by_cases hx : x = c
    · subst hx
      rw [splitCh_cons_sep, splitCh_cons_sep, ih, List.cons_append]
    · rcases hsp : splitCh c (xs ++ c :: b) with _ | ⟨z, zs⟩
      · exact absurd hsp (splitCh_ne_nil c _)
      · rw [ih, htl] at hsp
        rw [splitCh_cons_other c x _ z zs hx (by rw [ih, htl]; exact hsp)]
        simp only [List.cons_append] at hsp ⊢
        rw [hcons, if_neg hx]
        injection hsp with h1 h2
        rw [← h1, ← h2, List.cons_append]

/-- A separator-free list splits into a single chunk. -/
theorem splitCh_eq_single (c : Char) (l : List Char) (h : c ∉ l) :
    splitCh c l = [l] := by
  induction l with
  | nil => rfl
  | cons x xs ih =>
    simp only [List.mem_cons, not_or] at h
    rw [splitCh_cons_other c x xs xs [] (fun hh => h.1 hh.symm) (ih h.2)]

/-- `joinCh` undoes `splitCh`. -/
theorem joinCh_splitCh (c : Char) (l : List Char) :
    joinCh c (splitCh c l) = l := by
  induction l with
  | nil => rfl
  | cons x xs ih =>
    obtain ⟨y, ys, htl, hcons⟩ := splitCh_cons_eq c x xs
    rw [htl] at ih
    rw [hcons]
    by_cases hx : x = c
    · subst hx
      rw [if_pos rfl, joinCh, ih, List.nil_append]
    · rw [if_neg hx]
      cases ys with
      | nil =>
        simp only [joinCh] at ih ⊢
        rw [ih]
      | cons z zs =>
        simp only [joinCh] at ih ⊢
        rw [List.cons_append]
        rw [show (y ++ c :: joinCh c (z :: zs)) = xs from ih]

/-- The first chunk of a split is separator-free. -/
theorem splitCh_head_not_mem (c : Char) (l : List Char) (y : List Char)
    (ys : List (List Char)) (h : splitCh c l = y :: ys) : c ∉ y := by
  induction l generalizing y ys with
  | nil =>
    simp only [splitCh, List.cons.injEq] at h
    simp [← h.1]
  | cons x xs ih =>
    obtain ⟨z, zs, htl, hcons⟩ := splitCh_cons_eq c x xs
    rw [hcons] at h
    by_cases hxc : x = c
    · rw [if_pos hxc] at h
      injection h with h1 _
      simp [← h1]
    · rw [if_neg hxc] at h
      injection h with h1 _
      rw [← h1]
      simp only [List.mem_cons, not_or]
      exact ⟨fun hc => hxc hc.symm, ih z zs htl⟩

/-! ### C4: the skip rules of `convert_account` -/

/-- Membership in the skipped-names tuple coincides with Python's `in`. -/
theorem contains_topLevelNames (n : String) :
    topLevelNames.contains n = true ↔ n ∈ topLevelNames := by
  simp [List.elem_eq_mem]

/-- C4 (amended): name-skip, equity-skip, and — for accounts whose type the
translation table does map — the missing-parent-segment skip all return
`None` and leave the translation map unchanged. -/
theorem convert_account_skip_cases (st : TransMap) (acc : GCAccount)
    (h : acc.name ∈ topLevelNames ∨ acc.type_ = "EQUITY" ∨
         ((typeMap.lookup acc.type_).isSome ∧ ':' ∉ acc.name_full.data)) :
    convert_account st acc = (.ok none, st) := by
  by_cases h1 : topLevelNames.contains acc.name = true
  · simp only [convert_account, if_pos h1]
  · by_cases h2 : acc.type_ = "EQUITY"
    · simp only [convert_account, if_neg h1, if_pos h2]
    · have h3 : (typeMap.lookup acc.type_).isSome ∧ ':' ∉ acc.name_full.data := by
        rcases h with hn | ht | h3
        · exact absurd ((contains_topLevelNames acc.name).2 hn) h1
        · exact absurd ht h2
        · exact h3
      obtain ⟨t, hlk⟩ := Option.isSome_iff_exists.1 h3.1
      have hlen : (splitCh ':' acc.name_full.data).length ≤ 1 :=
        (splitCh_length_le_one_iff ':' acc.name_full.data).2 h3.2
      simp only [convert_account, if_neg h1, if_neg h2, hlk, if_pos hlen]

/-- A concrete equity row. -/
def equityRow : GCAccount :=
  { type_ := "EQUITY", name_full := "Root:Opening Balances",
    name := "Opening Balances", description := "", symbol := "EUR" }

/-- C4 witness: an equity account is skipped. -/
theorem convert_account_skip_cases_witness :
    convert_account [] equityRow = (.ok none, []) :=
  convert_account_skip_cases [] equityRow (Or.inr (Or.inl rfl))

/-- A GnuCash row of an unmapped type (`STOCK`) whose qualified name has no
parent segment. -/
def cexC4 : GCAccount :=
  { type_ := "STOCK", name_full := "Portfolio", name := "Portfolio",
    description := "", symbol := "EUR" }

/-- C4 counterexample: an account whose qualified name has no parent
segment but whose type is not in `typeMap` hits the `typeMap[...]` lookup
first, so `convert_account` raises `KeyError` instead of returning `None`. -/
theorem convert_account_rootless_unmapped_raises :
    ':' ∉ cexC4.name_full.data ∧
    cexC4.name ∉ topLevelNames ∧
    cexC4.type_ ≠ "EQUITY" ∧
    convert_account [] cexC4 = (.error (.keyError "STOCK"), []) ∧
    convert_account [] cexC4 ≠ (.ok none, []) := by
  refine ⟨by decide, by decide, by decide, by decide, by decide⟩

/-! ### C8: liability accounts raise `NotImplementedError` -/

/-- C8: a `LIABILITY` account that passes the name and parent-segment skip
rules reaches `raise NotImplementedError()`; no record is returned and the
translation map is unchanged. -/
theorem convert_account_liability_raises (st : TransMap) (acc : GCAccount)
    (hty : acc.type_ = "LIABILITY") (hname : acc.name ∉ topLevelNames)
    (hparent : ':' ∈ acc.name_full.data) :
    convert_account st acc = (.error .notImplementedError, st) := by
  have h1 : ¬topLevelNames.contains acc.name = true := fun hc =>
    hname ((contains_topLevelNames acc.name).1 hc)
  have h2 : acc.type_ ≠ "EQUITY" := by rw [hty]; decide
  have hlk : typeMap.lookup acc.type_ = some "liability" := by rw [hty]; rfl
  have hlen : ¬(splitCh ':' acc.name_full.data).length ≤ 1 := fun hle =>
    (splitCh_length_le_one_iff ':' acc.name_full.data).1 hle hparent
  simp only [convert_account, if_neg h1, if_neg h2, hlk, if_neg hlen]
  rw [if_neg (by decide : ¬("liability" : String) = "asset")]
  simp

/-- A concrete liability row that passes the skip rules. -/
def liabilityRow : GCAccount :=
  { type_ := "LIABILITY", name_full := "Liabilities:Loan",
    name := "Loan", description := "", symbol := "EUR" }

/-- C8 witness: a concrete liability row raises. -/
theorem convert_account_liability_raises_witness :
    convert_account [] liabilityRow = (.error .notImplementedError, []) :=
  convert_account_liability_raises [] liabilityRow rfl (by decide) (by decide)

/-! ### A case analysis of `convert_account`, shared by C5, C6 and C7 -/

/-- Every call to `convert_account` either raises with the map unchanged
(raising the assertion only when the key is already present), skips with
the map unchanged, or appends one entry whose record carries the
first-segment-dropped name and the generated notes. -/
theorem convert_account_spec (st : TransMap) (acc : GCAccount) :
    (∃ e, convert_account st acc = (.error e, st) ∧
       (e = .assertionError → ∃ p ∈ st, p.1 = acc)) ∨
    convert_account st acc = (.ok none, st) ∨
    (∃ f, convert_account st acc = (.ok (some f), st ++ [(acc, f)]) ∧
       st.any (fun p => p.1 == acc) = false ∧
       f.name = String.mk (joinCh ':' ((splitCh ':' acc.name_full.data).drop 1)) ∧
       ¬(splitCh ':' acc.name_full.data).length ≤ 1 ∧
       f.notes = some (mkNotes acc.description (jsonDumpsName acc.name_full))) := by
  by_cases h1 : topLevelNames.contains acc.name = true
  · right; left
    simp only [convert_account, if_pos h1]
  by_cases h2 : acc.type_ = "EQUITY"
  · right; left
    simp only [convert_account, if_neg h1, if_pos h2]
  rcases hlk : typeMap.lookup acc.type_ with _ | t
  · left
    refine ⟨.keyError acc.type_, ?_, by simp⟩
    simp only [convert_account, if_neg h1, if_neg h2, hlk]
  by_cases hlen : (splitCh ':' acc.name_full.data).length ≤ 1
  · right; left
    simp only [convert_account, if_neg h1, if_neg h2, hlk, if_pos hlen]
  by_cases ht1 : t = "asset"
  · rcases hrl : roleMap.lookup acc.type_ with _ | r
    · left
      refine ⟨.keyError acc.type_, ?_, by simp⟩
      simp only [convert_account, if_neg h1, if_neg h2, hlk, if_neg hlen, if_pos ht1, hrl]
    · by_cases hassert : st.any (fun p => p.1 == acc) = true
      · left
        refine ⟨.assertionError, ?_, fun _ => ?_⟩
        · simp only [convert_account, if_neg h1, if_neg h2, hlk, if_neg hlen, if_pos ht1,
            hrl, if_pos hassert]
        · obtain ⟨p, hp, hbeq⟩ := List.any_eq_true.1 hassert
          exact ⟨p, hp, eq_of_beq hbeq⟩
      · right; right
        have hfalse : st.any (fun p => p.1 == acc) = false := by
          simp only [Bool.not_eq_true] at hassert
          exact hassert
        refine ⟨{ type_ := t, name := String.mk (joinCh ':' ((splitCh ':' acc.name_full.data).drop 1)),
                  role := some r, currency_code := acc.symbol,
                  notes := some (mkNotes acc.description (jsonDumpsName acc.name_full)) },
               ?_, hfalse, rfl, hlen, rfl⟩
        simp only [convert_account, if_neg h1, if_neg h2, hlk, if_neg hlen, if_pos ht1,
          hrl, if_neg hassert]
  by_cases ht2 : t = "liability"
  · left
    refine ⟨.notImplementedError, ?_, by simp⟩
    simp only [convert_account, if_neg h1, if_neg h2, hlk, if_neg hlen, if_neg ht1, if_pos ht2]
  by_cases hassert : st.any (fun p => p.1 == acc) = true
  · left
    refine ⟨.assertionError, ?_, fun _ => ?_⟩
    · simp only [convert_account, if_neg h1, if_neg h2, hlk, if_neg hlen, if_neg ht1,
        if_neg ht2, if_pos hassert]
    · obtain ⟨p, hp, hbeq⟩ := List.any_eq_true.1 hassert
      exact ⟨p, hp, eq_of_beq hbeq⟩
  · right; right
    have hfalse : st.any (fun p => p.1 == acc) = false := by
      simp only [Bool.not_eq_true] at hassert
      exact hassert
    refine ⟨{ type_ := t, name := String.mk (joinCh ':' ((splitCh ':' acc.name_full.data).drop 1)),
              currency_code := acc.symbol,
              notes := some (mkNotes acc.description (jsonDumpsName acc.name_full)) },
           ?_, hfalse, rfl, hlen, rfl⟩
    simp only [convert_account, if_neg h1, if_neg h2, hlk, if_neg hlen, if_neg ht1,
      if_neg ht2, if_neg hassert]

/-! ### C5: the destination name drops the first path segment -/

/-- C5: whenever `convert_account` returns a record, the source's
qualified name is a colon-free first segment, a colon, and then exactly
the record's name. -/
theorem convert_account_name_drops_first_segment (st st' : TransMap)
    (acc : GCAccount) (f : FF3Account)
    (h : convert_account st acc = (.ok (some f), st')) :
    ∃ seg : List Char, ':' ∉ seg ∧
      acc.name_full.data = seg ++ ':' :: f.name.data := by
  rcases convert_account_spec st acc with ⟨e, he, _⟩ | hnone | ⟨g, hg, _, hname, hlen, _⟩
  · rw [h] at he
    simp at he
  · rw [h] at hnone
    simp at hnone
  · rw [h] at hg
    injection hg with hg1 hg2
    injection hg1 with hg1
    injection hg1 with hg1
    subst hg1
    rcases hsp : splitCh ':' acc.name_full.data with _ | ⟨y, ys⟩
    · exact absurd hsp (splitCh_ne_nil ':' acc.name_full.data)
    rcases ys with _ | ⟨z, zs⟩
    · rw [hsp] at hlen
      simp at hlen
    refine ⟨y, splitCh_head_not_mem ':' acc.name_full.data y (z :: zs) hsp, ?_⟩
    have hjoin := joinCh_splitCh ':' acc.name_full.data
    rw [hsp] at hjoin
    rw [hsp] at hname
    simp only [List.drop_succ_cons, List.drop_zero] at hname
    rw [← hjoin]
    simp only [joinCh]
    rw [hname]

/-- A concrete asset row. -/
def assetRow : GCAccount :=
  { type_ := "ASSET", name_full := "Assets:Cash", name := "Cash",
    description := "Wallet", symbol := "EUR" }

/-- The record `convert_account` builds from `assetRow`. -/
def assetRowFF3 : FF3Account :=
  { type_ := "asset", name := "Cash", role := some "defaultAsset",
    currency_code := "EUR",
    notes := some (mkNotes "Wallet" (jsonDumpsName "Assets:Cash")) }

theorem convert_account_assetRow :
    convert_account [] assetRow = (.ok (some assetRowFF3), [(assetRow, assetRowFF3)]) := by
  decide

/-- C5 witness: for the concrete asset row, the qualified name splits as
first segment, colon, destination name. -/
theorem convert_account_name_drops_first_segment_witness :
    convert_account [] assetRow = (.ok (some assetRowFF3), [(assetRow, assetRowFF3)]) ∧
    ∃ seg : List Char, ':' ∉ seg ∧
      assetRow.name_full.data = seg ++ ':' :: assetRowFF3.name.data :=
  ⟨convert_account_assetRow,
   convert_account_name_drops_first_segment [] [(assetRow, assetRowFF3)] assetRow assetRowFF3
     convert_account_assetRow⟩

/-! ### Substring membership as the infix relation -/

theorem containsL_iff_occurs (l pat : List Char) :
    containsL l pat = true ↔ pat <:+: l := by
  rw [containsL, List.any_eq_true]
  constructor
  · rintro ⟨t, ht, hpre⟩
    exact List.infix_iff_prefix_suffix.2
      ⟨t, List.isPrefixOf_iff_prefix.1 hpre, (List.mem_tails t l).1 ht⟩
  · intro hinf
    obtain ⟨t, hpre, hsuf⟩ := List.infix_iff_prefix_suffix.1 hinf
    exact ⟨t, (List.mem_tails t l).2 hsuf, List.isPrefixOf_iff_prefix.2 hpre⟩

theorem containsL_intro (l pat : List Char) (h : pat <:+: l) :
    containsL l pat = true := (containsL_iff_occurs l pat).2 h

/-! ### The generated notes never hide the markers: newline structure -/

theorem hexDig_ne_newline : ∀ d < 16, hexDig d ≠ '\n' := by decide

theorem newline_not_mem_hex4 (n : Nat) : '\n' ∉ hex4 n := by
  simp only [hex4, List.mem_cons, List.not_mem_nil, or_false]
  push_neg
  refine ⟨?_, ?_, ?_, ?_⟩ <;>
    exact fun h => hexDig_ne_newline _ (Nat.mod_lt _ (by norm_num)) h.symm

theorem newline_not_mem_escChar (c : Char) : '\n' ∉ escChar c := by
  unfold escChar
  split_ifs with h1 h2 h3 h4 h5 h6 h7 h8 h9
  · decide
  · decide
  · decide
  · decide
  · decide
  · decide
  · decide
  · intro hmem
    rcases List.mem_singleton.1 hmem with rfl
    exact absurd h8.1 (by decide)
  · intro hmem
    simp only [List.mem_cons] at hmem
    rcases hmem with h | h | h
    · exact absurd h (by decide)
    · exact absurd h (by decide)
    · exact newline_not_mem_hex4 _ h
  · intro hmem
    simp only [List.cons_append, List.mem_cons, List.mem_append] at hmem
    rcases hmem with h | h | h | h | h | h
    · exact absurd h (by decide)
    · exact absurd h (by decide)
    · exact newline_not_mem_hex4 _ h
    · exact absurd h (by decide)
    · exact absurd h (by decide)
    · exact newline_not_mem_hex4 _ h

theorem newline_not_mem_jsonDumpsName (s : String) :
    '\n' ∉ (jsonDumpsName s).data := by
  show '\n' ∉ ("\x7b\"name\": \"".data ++ escapeJson s ++ "\"\x7d".data)
  intro hmem
  rcases List.mem_append.1 hmem with h | h
  · rcases List.mem_append.1 h with h | h
    · exact absurd h (by decide)
    · obtain ⟨c, _, hc⟩ := List.mem_flatMap.1 h
      exact newline_not_mem_escChar c hc
  · exact absurd h (by decide)

/-- The characters of the generated notes, with every newline explicit. -/
theorem mkNotes_data (d j : String) :
    (mkNotes d j).data =
      d.data ++ '\n' :: ('\n' :: ("Imported from GnuCash".data ++ '\n' ::
        ('\n' :: ("--meta--".data ++ '\n' :: (j.data ++ '\n' ::
          ("--meta-end--".data ++ ['\n'])))))) := by
  simp only [mkNotes, String.data_append, List.append_assoc]
  rfl

/-- Splitting the generated notes on newlines: the lines of the
description, then the empty line, the marker line, another empty line, and
the three lines of the metadata block, plus the chunk after the final
newline. -/
theorem splitCh_mkNotes (d j : String) (hj : '\n' ∉ j.data) :
    splitCh '\n' (mkNotes d j).data =
      splitCh '\n' d.data ++
        [[], "Imported from GnuCash".data, [], "--meta--".data, j.data,
         "--meta-end--".data, []] := by
  rw [mkNotes_data, splitCh_append_cons, splitCh_cons_sep, splitCh_append_cons,
    splitCh_eq_single '\n' ("Imported from GnuCash".data) (by decide),
    splitCh_cons_sep, splitCh_append_cons,
    splitCh_eq_single '\n' ("--meta--".data) (by decide),
    splitCh_append_cons, splitCh_eq_single '\n' j.data hj,
    splitCh_append_cons, splitCh_eq_single '\n' ("--meta-end--".data) (by decide)]
  rfl

/-- `splitlines` of the generated notes. -/
theorem pySplitLines_mkNotes (d j : String) (hj : '\n' ∉ j.data) :
    pySplitLines (mkNotes d j) =
      (splitCh '\n' d.data).map String.mk ++
        ["", "Imported from GnuCash", "", "--meta--", j, "--meta-end--"] := by
  have hne : ¬(mkNotes d j).data = [] := by
    rw [mkNotes_data]
    simp
  have hsplit := splitCh_mkNotes d j hj
  have hassoc : splitCh '\n' (mkNotes d j).data =
      (splitCh '\n' d.data ++
        [[], "Imported from GnuCash".data, [], "--meta--".data, j.data,
         "--meta-end--".data]) ++ [[]] := by
    rw [hsplit]
    simp
  rw [pySplitLines, if_neg hne, hassoc, List.getLast?_concat, if_pos rfl,
    List.dropLast_concat, List.map_append]
  rfl

/-! ### C6: every created account is marked in its notes -/

/-- C6: whenever `convert_account` returns a record, its notes contain the
substring `Imported from GnuCash`, and its lines contain consecutive
`--meta--`, JSON-of-qualified-name, `--meta-end--` lines. -/
theorem convert_account_notes_marked (st st' : TransMap) (acc : GCAccount)
    (f : FF3Account) (h : convert_account st acc = (.ok (some f), st')) :
    ∃ notes, f.notes = some notes ∧
      pyContains notes "Imported from GnuCash" = true ∧
      ∃ pre post, pySplitLines notes =
        pre ++ ["--meta--", jsonDumpsName acc.name_full, "--meta-end--"] ++ post := by
  rcases convert_account_spec st acc with ⟨e, he, _⟩ | hnone | ⟨g, hg, _, _, _, hnotes⟩
  · rw [h] at he
    simp at he
  · rw [h] at hnone
    simp at hnone
  · rw [h] at hg
    injection hg with hg1 _
    injection hg1 with hg1
    injection hg1 with hg1
    subst hg1
    refine ⟨mkNotes acc.description (jsonDumpsName acc.name_full), hnotes, ?_, ?_⟩
    · rw [pyContains]
      apply containsL_intro
      refine ⟨acc.description.data ++ ['\n', '\n'],
        '\n' :: ('\n' :: ("--meta--".data ++ '\n' ::
          ((jsonDumpsName acc.name_full).data ++ '\n' ::
            ("--meta-end--".data ++ ['\n'])))), ?_⟩
      rw [mkNotes_data]
      simp only [List.append_assoc, List.cons_append, List.nil_append]
    · refine ⟨(splitCh '\n' acc.description.data).map String.mk ++
        ["", "Imported from GnuCash", ""], [], ?_⟩
      rw [pySplitLines_mkNotes _ _ (newline_not_mem_jsonDumpsName _)]
      simp

/-- C6 witness: the concrete asset row's record is marked. -/
theorem convert_account_notes_marked_witness :
    convert_account [] assetRow = (.ok (some assetRowFF3), [(assetRow, assetRowFF3)]) ∧
    ∃ notes, assetRowFF3.notes = some notes ∧
      pyContains notes "Imported from GnuCash" = true ∧
      ∃ pre post, pySplitLines notes =
        pre ++ ["--meta--", jsonDumpsName assetRow.name_full, "--meta-end--"] ++ post :=
  ⟨convert_account_assetRow,
   convert_account_notes_marked [] [(assetRow, assetRowFF3)] assetRow assetRowFF3
     convert_account_assetRow⟩

/-! ### `json.loads` (used at src/ff3_cli.py line 113)

Modelled from Python's `json` module, restricted to what this program can
meet: a JSON object with exactly one string key and one string value
(`json.dumps({"name": ...})` output, possibly with junk around it). As in
CPython, any trailing characters after the object make the whole parse
fail. The one deviation: a lone surrogate escape is rejected rather than
decoded, since Lean `Char` cannot carry one; this program never emits
lone surrogates. -/

/-- Hexadecimal digit value (`0-9`, `a-f`, `A-F`). -/
def fromHexDig (c : Char) : Option Nat :=
  if 48 ≤ c.toNat ∧ c.toNat ≤ 57 then some (c.toNat - 48)
  else if 97 ≤ c.toNat ∧ c.toNat ≤ 102 then some (c.toNat - 87)
  else if 65 ≤ c.toNat ∧ c.toNat ≤ 70 then some (c.toNat - 55)
  else none

/-- Parse a JSON string body after its opening quote, decoding escapes and
recombining surrogate pairs; returns the decoded characters and the input
after the closing quote. -/
def parseJStr : List Char → Option (List Char × List Char)
  | '"' :: r => some ([], r)
  | '\\' :: '"' :: r => (parseJStr r).map (fun p => ('"' :: p.1, p.2))
  | '\\' :: '\\' :: r => (parseJStr r).map (fun p => ('\\' :: p.1, p.2))
  | '\\' :: '/' :: r => (parseJStr r).map (fun p => ('/' :: p.1, p.2))
  | '\\' :: 'n' :: r => (parseJStr r).map (fun p => ('\n' :: p.1, p.2))
  | '\\' :: 'r' :: r => (parseJStr r).map (fun p => ('\r' :: p.1, p.2))
  | '\\' :: 't' :: r => (parseJStr r).map (fun p => ('\t' :: p.1, p.2))
  | '\\' :: 'b' :: r => (parseJStr r).map (fun p => (Char.ofNat 8 :: p.1, p.2))
  | '\\' :: 'f' :: r => (parseJStr r).map (fun p => (Char.ofNat 12 :: p.1, p.2))
  | '\\' :: 'u' :: h1 :: h2 :: h3 :: h4 :: r =>
    match fromHexDig h1, fromHexDig h2, fromHexDig h3, fromHexDig h4 with
    | some a, some b, some c, some d =>
      let v := 4096 * a + 256 * b + 16 * c + d
      if 0xd800 ≤ v ∧ v ≤ 0xdbff then
        match r with
        | '\\' :: 'u' :: g1 :: g2 :: g3 :: g4 :: r2 =>
          match fromHexDig g1, fromHexDig g2, fromHexDig g3, fromHexDig g4 with
          | some a2, some b2, some c2, some d2 =>
            let w := 4096 * a2 + 256 * b2 + 16 * c2 + d2
            if 0xdc00 ≤ w ∧ w ≤ 0xdfff then
              (parseJStr r2).map (fun p =>
                (Char.ofNat (0x10000 + (v - 0xd800) * 0x400 + (w - 0xdc00)) :: p.1, p.2))
            else none
          | _, _, _, _ => none
        | _ => none
      else if 0xdc00 ≤ v ∧ v ≤ 0xdfff then none
      else (parseJStr r).map (fun p => (Char.ofNat v :: p.1, p.2))
    | _, _, _, _ => none
  | '\\' :: _ :: _ => none
  | '\\' :: [] => none
  | c :: r => (parseJStr r).map (fun p => (c :: p.1, p.2))
  | [] => none

/-- Skip JSON whitespace. -/
def skipWs : List Char → List Char
  | c :: r => if c = ' ' ∨ c = '\t' ∨ c = '\n' ∨ c = '\r' then skipWs r else c :: r
  | [] => []

/-- `json.loads`, restricted as described above. -/
def jsonLoads (s : String) : Except PyError (List (String × String)) :=
  match skipWs s.data with
  | '\x7b' :: r =>
    match skipWs r with
    | '"' :: r1 =>
      match parseJStr r1 with
      | none => .error .jsonDecodeError
      | some (key, r2) =>
        match skipWs r2 with
        | ':' :: r3 =>
          match skipWs r3 with
          | '"' :: r4 =>
            match parseJStr r4 with
            | none => .error .jsonDecodeError
            | some (val, r5) =>
              match skipWs r5 with
              | '\x7d' :: r6 =>
                match skipWs r6 with
                | [] => .ok [(String.mk key, String.mk val)]
                | _ => .error .jsonDecodeError
              | _ => .error .jsonDecodeError
          | _ => .error .jsonDecodeError
        | _ => .error .jsonDecodeError
    | _ => .error .jsonDecodeError
  | _ => .error .jsonDecodeError

/-! ### `FF3Operator` (src/ff3_cli.py lines 81-141) -/

/-- The attribute fields of a fetched account that the program reads: the
pydantic validation of `d["attributes"]` into an `FF3Account`. -/
structure RawAttrs where
  type_ : String
  name : String := ""
  account_role : Option String := none
  currency_code : String := "EUR"
  include_net_worth : Bool := true
  notes : Option String := some ""
deriving DecidableEq, Repr

/-- One element of the fetched `data` array: `d["id"]` plus
`d["attributes"]`. -/
structure RawAccount where
  id : Int
  attributes : RawAttrs
deriving DecidableEq, Repr

/-- The notes-scanning loop of `account_convert` (lines 103-110). A line
containing `--meta--` switches collection on; once collecting, every later
line — including the `--meta-end--` line — is appended, because the `elif`
chain tests `in_meta` before it tests for the end marker; the `break` is
reachable only while not collecting. -/
def metaLoop (in_meta : Bool) : List String → List String
  | [] => []
  | l :: ls =>
    if pyContains l "--meta--" then metaLoop true ls
    else if in_meta then l :: metaLoop in_meta ls
    else if pyContains l "--meta-end--" then []
    else metaLoop in_meta ls

/-- The metadata extraction of `account_convert` (lines 96-115): when the
notes are present, non-empty and contain `--meta--`, scan the lines and
`json.loads` their concatenation; otherwise the meta dict stays empty. -/
def extractMeta (notes : Option String) : Except PyError (List (String × String)) :=
  match notes with
  | none => .ok []
  | some s =>
    if s ≠ "" ∧ pyContains s "--meta--" = true then
      if pySplitLines s ≠ [] then
        jsonLoads (String.join (metaLoop false (pySplitLines s)))
      else .ok []
    else .ok []

/-- One iteration of `account_convert`'s loop (lines 95-121): extract the
meta dict out of the notes, validate the attributes, set `id_` and
`_meta`. -/
def convertRaw (d : RawAccount) : Except PyError FF3Account :=
  (extractMeta d.attributes.notes).map fun meta =>
    { type_ := d.attributes.type_, id_ := d.id, name := d.attributes.name,
      role := d.attributes.account_role, currency_code := d.attributes.currency_code,
      include_net_worth := d.attributes.include_net_worth, notes := d.attributes.notes,
      _meta := meta }

/-- `FF3Operator.account_convert` (lines 92-121): convert every raw
account in order, appending each to `self._accounts`; a raised exception
aborts the loop. -/
def account_convert (raws : List RawAccount) (accounts : List FF3Account) :
    Except PyError (List FF3Account) :=
  match raws with
  | [] => .ok accounts
  | d :: ds =>
    match convertRaw d with
    | .error e => .error e
    | .ok acc => account_convert ds (accounts ++ [acc])

/-- The mutable fields of `FF3Operator` (lines 85-86). -/
structure OperatorState where
  _accounts_raw : List RawAccount := []
  _accounts : List FF3Account := []
deriving DecidableEq, Repr

/-- `FF3Operator.account_fetch` (lines 88-90): replace `_accounts_raw`
with the freshly paged account list, then run `account_convert` (which
appends to `_accounts`). `resp` models the server's per-page answers. -/
def account_fetch (resp : Nat → Page RawAccount) (st : OperatorState) :
    Except PyError OperatorState :=
  (account_convert (get_paged resp) st._accounts).map fun accs =>
    { _accounts_raw := get_paged resp, _accounts := accs }

/-- `n` successive `account_fetch` calls on a fresh operator. -/
def account_fetch_n (resp : Nat → Page RawAccount) : Nat → Except PyError OperatorState
  | 0 => .ok {}
  | n + 1 => (account_fetch_n resp n).bind (account_fetch resp)

/-- The observable actions of `account_del_imported`. -/
inductive DelAction where
  | printSkip (id : Int) (name : String)
  | printDelete (id : Int) (name : String)
  | delete (path : String)
deriving DecidableEq, Repr

/-- The loop of `FF3Operator.account_del_imported` (lines 132-138): for
each fetched raw account, print and issue a DELETE when the notes are
present and contain the import marker, otherwise only print the skip
decision. -/
def account_del_imported (raws : List RawAccount) : List DelAction :=
  raws.flatMap fun acc =>
    match acc.attributes.notes with
    | some notes =>
      if pyContains notes "Imported from GnuCash" then
        [.printDelete acc.id acc.attributes.name,
         .delete ("accounts/" ++ toString acc.id)]
      else [.printSkip acc.id acc.attributes.name]
    | none => [.printSkip acc.id acc.attributes.name]

/-- The marker test of line 134. -/
def isImported (a : RawAccount) : Bool :=
  match a.attributes.notes with
  | some n => pyContains n "Imported from GnuCash"
  | none => false

/-- The DELETE requests among a list of actions. -/
def deleteActions (acts : List DelAction) : List String :=
  acts.filterMap fun a =>
    match a with
    | .delete p => some p
    | _ => none

/-! ### C3: deletion hits exactly the marked accounts -/

theorem account_del_imported_cons (a : RawAccount) (as : List RawAccount) :
    account_del_imported (a :: as) =
      (if isImported a then
        [DelAction.printDelete a.id a.attributes.name,
         DelAction.delete ("accounts/" ++ toString a.id)]
       else [DelAction.printSkip a.id a.attributes.name]) ++ account_del_imported as := by
  rcases h : a.attributes.notes with _ | n
  · simp [account_del_imported, isImported, h]
  · by_cases hc : pyContains n "Imported from GnuCash" = true
    · simp [account_del_imported, isImported, h, hc]
    · simp [account_del_imported, isImported, h, hc]

/-- C3: the DELETE requests issued by `account_del_imported` are exactly
one request per account whose notes are present and contain the marker
(in order), and every unmarked account only gets a printed skip
decision. -/
theorem account_del_imported_exact (raws : List RawAccount) :
    deleteActions (account_del_imported raws) =
      (raws.filter isImported).map (fun a => "accounts/" ++ toString a.id) ∧
    ∀ a ∈ raws, isImported a = false →
      DelAction.printSkip a.id a.attributes.name ∈ account_del_imported raws := by
  induction raws with
  | nil => exact ⟨rfl, by simp⟩
  | cons a as ih =>
    rw [account_del_imported_cons]
    constructor
    · rw [deleteActions, List.filterMap_append, List.filter_cons]
      by_cases hi : isImported a
      · rw [if_pos hi, if_pos hi, List.map_cons]
        exact congrArg _ ih.1
      · rw [if_neg hi, if_neg (by simpa using hi)]
        exact ih.1
    · intro b hb hbi
      rcases List.mem_cons.1 hb with rfl | hmem
      · rw [if_neg (by simp [hbi])]
        exact List.mem_append_left _ (List.mem_singleton.2 rfl)
      · exact List.mem_append_right _ (ih.2 b hmem hbi)

/-! ### API client error handling (`Client.get`/`post`/`delete`) -/

/-- The fields of an HTTP response the client reads: the status code, the
decoded body when it parses as JSON, and the raw body text. -/
structure HResponse where
  status : Nat
  jsonBody : Option String
  text : String
deriving DecidableEq, Repr

/-- `requests.Response.raise_for_status`: raises an `HTTPError` exactly
for status codes in `[400, 600)`. -/
def raiseForStatus (r : HResponse) : Except PyError Unit :=
  if 400 ≤ r.status ∧ r.status < 600 then .error (.httpError r.status) else .ok ()

/-- `res.json()`: the decoded body, or a `JSONDecodeError`. -/
def resJson (r : HResponse) : Except PyError String :=
  match r.jsonBody with
  | some j => .ok j
  | none => .error .jsonDecodeError

/-- What `print(res.json())` with the `except JSONDecodeError:
print(res.text)` fallback emits. -/
def bodyRepr (r : HResponse) : String :=
  match r.jsonBody with
  | some j => j
  | none => r.text

/-- `Client.get` (lines 26-34): when `fail`, raise for status — printing
nothing — then return `res.json()`. Result: printed lines and outcome. -/
def clientGet (fail : Bool) (r : HResponse) :
    List String × Except PyError String :=
  if fail then
    match raiseForStatus r with
    | .error e => ([], .error e)
    | .ok _ => ([], resJson r)
  else ([], resJson r)

/-- `Client.post` (lines 48-60): when `fail`, print the body, then raise
for status; finally return `res.json()`. -/
def clientPost (fail : Bool) (r : HResponse) :
    List String × Except PyError String :=
  if fail then
    match raiseForStatus r with
    | .error e => ([bodyRepr r], .error e)
    | .ok _ => ([bodyRepr r], resJson r)
  else ([], resJson r)

/-- `Client.delete` (lines 62-72): like `post`, but returns nothing. -/
def clientDelete (fail : Bool) (r : HResponse) :
    List String × Except PyError Unit :=
  if fail then
    match raiseForStatus r with
    | .error e => ([bodyRepr r], .error e)
    | .ok _ => ([bodyRepr r], .ok ())
  else ([], .ok ())

/-- A plain 500 response. -/
def resp500 : HResponse :=
  { status := 500, jsonBody := some "\x7b\"message\": \"server error\"\x7d",
    text := "server error page" }

/-- C9 counterexample: on a 500 response, `Client.get` raises but prints
nothing — the response body is not printed, contrary to the claim. -/
theorem clientGet_raises_without_printing :
    400 ≤ resp500.status ∧
    clientGet true resp500 = ([], .error (.httpError 500)) ∧
    (clientGet true resp500).1 ≠ [bodyRepr resp500] := by
  refine ⟨by decide, by decide, by decide⟩

/-- C9 (amended): on an HTTP error status (4xx/5xx) with `fail=True`, all
three verbs raise; `post` and `delete` print the response body (decoded
JSON if possible, else the raw text) before raising, while `get` raises
without printing. -/
theorem client_error_propagation (r : HResponse)
    (h4 : 400 ≤ r.status) (h6 : r.status < 600) :
    (clientGet true r).2 = .error (.httpError r.status) ∧
    (clientGet true r).1 = [] ∧
    clientPost true r = ([bodyRepr r], .error (.httpError r.status)) ∧
    clientDelete true r = ([bodyRepr r], .error (.httpError r.status)) := by
  have hr : raiseForStatus r = .error (.httpError r.status) := by
    rw [raiseForStatus, if_pos ⟨h4, h6⟩]
  refine ⟨?_, ?_, ?_, ?_⟩ <;> simp [clientGet, clientPost, clientDelete, hr]

/-- C9 witness: the amended behavior at the concrete 500 response. -/
theorem client_error_propagation_witness :
    (clientGet true resp500).2 = .error (.httpError 500) ∧
    (clientGet true resp500).1 = [] ∧
    clientPost true resp500 = ([bodyRepr resp500], .error (.httpError 500)) ∧
    clientDelete true resp500 = ([bodyRepr resp500], .error (.httpError 500)) :=
  client_error_propagation resp500 (by decide) (by decide)

/-! ### C2: the notes → meta round trip -/

/-- The translator's record for `assetRow`, as the server would return it:
same notes, with the server-assigned id. -/
def assetRawBackAttrs : RawAttrs :=
  { type_ := "asset", name := "Cash", account_role := some "defaultAsset",
    currency_code := "EUR",
    notes := some (mkNotes "Wallet" (jsonDumpsName "Assets:Cash")) }

def assetRawBack : RawAccount :=
  { id := 7, attributes := assetRawBackAttrs }

/-- C2 counterexample input: on the translator-produced notes, the line
scan of `account_convert` also collects the `--meta-end--` line (the
`elif` ordering makes the `break` unreachable once collection started), so
`json.loads` receives the JSON object with `--meta-end--` glued on and
raises instead of returning `{"name": "Assets:Cash"}`. -/
theorem account_convert_meta_roundtrip_fails :
    String.join (metaLoop false
        (pySplitLines (mkNotes "Wallet" (jsonDumpsName "Assets:Cash")))) =
      jsonDumpsName "Assets:Cash" ++ "--meta-end--" ∧
    convertRaw assetRawBack = .error .jsonDecodeError ∧
    jsonLoads (jsonDumpsName "Assets:Cash") =
      .ok [("name", "Assets:Cash")] := by
  refine ⟨by decide, by decide, by decide⟩

/-! ### C10: `account_fetch` replaces the raw cache but accumulates
`_accounts` -/

/-- The successful conversion of a raw account (junk if it raises). -/
def convF (a : RawAccount) : FF3Account :=
  match convertRaw a with
  | .ok b => b
  | .error _ => { type_ := "" }

theorem convertRaw_eq_convF (a : RawAccount) (h : ∃ b, convertRaw a = .ok b) :
    convertRaw a = .ok (convF a) := by
  obtain ⟨b, hb⟩ := h
  rw [convF, hb]

/-- Conversion copies the id and every attribute into the record, so
distinct raw accounts yield distinct records. -/
theorem convertRaw_injective (a1 a2 : RawAccount) (b : FF3Account)
    (h1 : convertRaw a1 = .ok b) (h2 : convertRaw a2 = .ok b) : a1 = a2 := by
  rw [convertRaw] at h1 h2
  rcases hm1 : extractMeta a1.attributes.notes with e1 | m1 <;> rw [hm1] at h1
  · simp [Except.map] at h1
  rcases hm2 : extractMeta a2.attributes.notes with e2 | m2 <;> rw [hm2] at h2
  · simp [Except.map] at h2
  simp only [Except.map, Except.ok.injEq] at h1 h2
  rw [← h2] at h1
  rcases a1 with ⟨i1, t1, n1, r1, c1, w1, o1⟩
  rcases a2 with ⟨i2, t2, n2, r2, c2, w2, o2⟩
  simp only [FF3Account.mk.injEq] at h1
  obtain ⟨ht, hi, hn, hr, hc, hw, ho, -⟩ := h1
  simp_all

/-- Converting a whole raw list appends its image to `_accounts`. -/
theorem account_convert_ok (raws : List RawAccount)
    (h : ∀ a ∈ raws, ∃ b, convertRaw a = .ok b) (accs : List FF3Account) :
    account_convert raws accs = .ok (accs ++ raws.map convF) := by
  induction raws generalizing accs with
  | nil => simp [account_convert]
  | cons d ds ih =>
    have hd := convertRaw_eq_convF d (h d (List.mem_cons_self d ds))
    rw [account_convert, hd]
    show account_convert ds (accs ++ [convF d]) = .ok (accs ++ (d :: ds).map convF)
    rw [ih (fun a ha => h a (List.mem_cons_of_mem d ha)) (accs ++ [convF d])]
    simp

/-- After `n + 1` fetches: the raw cache holds exactly the last page walk,
while `_accounts` holds `n + 1` copies of the converted list. -/
theorem account_fetch_n_ok (resp : Nat → Page RawAccount)
    (h : ∀ a ∈ get_paged resp, ∃ b, convertRaw a = .ok b) (n : Nat) :
    account_fetch_n resp (n + 1) =
      .ok { _accounts_raw := get_paged resp,
            _accounts := (List.replicate (n + 1) ((get_paged resp).map convF)).flatten } := by
  induction n with
  | zero =>
    show (account_fetch_n resp 0).bind (account_fetch resp) = _
    rw [account_fetch_n]
    show account_fetch resp {} = _
    rw [account_fetch, account_convert_ok _ h]
    simp [Except.map]
  | succ m ih =>
    show (account_fetch_n resp (m + 1)).bind (account_fetch resp) = _
    rw [ih]
    show account_fetch resp _ = _
    rw [account_fetch, account_convert_ok _ h]
    simp only [Except.map, Except.ok.injEq, OperatorState.mk.injEq, true_and]
    rw [List.replicate_succ' (m + 1)]
    simp

theorem count_flatten_replicate {α : Type} [DecidableEq α] (n : Nat) (L : List α)
    (b : α) : ((List.replicate n L).flatten).count b = n * L.count b := by
  induction n with
  | zero => simp
  | succ m ih =>
    rw [List.replicate_succ, List.flatten_cons, List.count_append, ih,
      Nat.succ_mul, Nat.add_comm]

/-- With no duplicates among the fetched accounts, each one's conversion
occurs exactly once in the converted list. -/
theorem count_convF_map (fetched : List RawAccount) (a : RawAccount)
    (ha : a ∈ fetched) (hnd : fetched.Nodup)
    (hok : ∀ x ∈ fetched, ∃ b, convertRaw x = .ok b) :
    (fetched.map convF).count (convF a) = 1 := by
  rw [List.count_eq_countP, List.countP_map]
  have hcongr : ∀ x ∈ fetched,
      ((fun y => y == convF a) ∘ convF) x = true ↔ (x == a) = true := by
    intro x hx
    simp only [Function.comp, beq_iff_eq]
    constructor
    · intro heq
      exact convertRaw_injective x a (convF a)
        (heq ▸ convertRaw_eq_convF x (hok x hx)) (convertRaw_eq_convF a (hok a ha))
    · intro heq
      rw [heq]
  rw [List.countP_congr hcongr, ← List.count_eq_countP]
  exact List.count_eq_one_of_mem hnd ha

/-- C10: after `n ≥ 1` calls to `account_fetch` (with each fetched account
converting successfully and the server sending no duplicates), every
fetched account sits exactly once in `_accounts_raw` but its converted
record sits `n` times in `_accounts`. -/
theorem account_fetch_n_raw_once_accounts_n_times (resp : Nat → Page RawAccount)
    (n : Nat) (hn : 1 ≤ n) (hnd : (get_paged resp).Nodup)
    (hok : ∀ a ∈ get_paged resp, ∃ b, convertRaw a = .ok b) :
    ∃ st, account_fetch_n resp n = .ok st ∧
      st._accounts_raw = get_paged resp ∧
      ∀ a ∈ get_paged resp,
        st._accounts_raw.count a = 1 ∧ st._accounts.count (convF a) = n := by
  obtain ⟨m, rfl⟩ : ∃ m, n = m + 1 := ⟨n - 1, by omega⟩
  refine ⟨_, account_fetch_n_ok resp hok m, rfl, ?_⟩
  intro a ha
  constructor
  · exact List.count_eq_one_of_mem hnd ha
  · show ((List.replicate (m + 1) ((get_paged resp).map convF)).flatten).count (convF a) = m + 1
    rw [count_flatten_replicate, count_convF_map (get_paged resp) a ha hnd hok,
      Nat.mul_one]

def rawAttrsA : RawAttrs := { type_ := "asset", name := "One", notes := some "hello" }

def rawAttrsB : RawAttrs := { type_ := "expense", name := "Two", notes := none }

def rawA : RawAccount := { id := 1, attributes := rawAttrsA }

def rawB : RawAccount := { id := 2, attributes := rawAttrsB }

/-- A concrete server whose every response reports two total pages. -/
def respW : Nat → Page RawAccount :=
  fun _ => { data := [rawA, rawB], total_pages := 2 }

/-- C10 witness: two fetches against the concrete server. -/
theorem account_fetch_n_raw_once_accounts_n_times_witness :
    1 ≤ 2 ∧ (get_paged respW).Nodup ∧
    (∀ a ∈ get_paged respW, ∃ b, convertRaw a = .ok b) ∧
    (∃ st, account_fetch_n respW 2 = .ok st ∧
      st._accounts_raw = get_paged respW ∧
      ∀ a ∈ get_paged respW,
        st._accounts_raw.count a = 1 ∧ st._accounts.count (convF a) = 2) := by
  have hok : ∀ a ∈ get_paged respW, ∃ b, convertRaw a = .ok b := by
    intro a ha
    rw [show get_paged respW = [rawA, rawB] from by decide] at ha
    rcases List.mem_cons.1 ha with rfl | ha
    · exact ⟨convF rawA, by decide⟩
    rcases List.mem_cons.1 ha with rfl | ha
    · exact ⟨convF rawB, by decide⟩
    · exact absurd ha (List.not_mem_nil a)
  exact ⟨by decide, by decide, hok,
    account_fetch_n_raw_once_accounts_n_times respW 2 (by decide) (by decide) hok⟩

/-! ### The escape encoding is invertible (`parseJStr` decodes
`escapeJson`), so the translator's JSON determines the qualified name -/

theorem fromHexDig_hexDig : ∀ d < 16, fromHexDig (hexDig d) = some d := by decide

/-- A decoder for the escape encoding: a left inverse of `escapeJson`
(into code points), which makes the encoding injective. -/
def unesc : List Char → Option (List Nat)
  | [] => some []
  | '\\' :: t =>
    match t with
    | '"' :: r => (unesc r).map (34 :: ·)
    | '\\' :: r => (unesc r).map (92 :: ·)
    | 'n' :: r => (unesc r).map (10 :: ·)
    | 'r' :: r => (unesc r).map (13 :: ·)
    | 't' :: r => (unesc r).map (9 :: ·)
    | 'b' :: r => (unesc r).map (8 :: ·)
    | 'f' :: r => (unesc r).map (12 :: ·)
    | 'u' :: h1 :: h2 :: h3 :: h4 :: r =>
      match fromHexDig h1, fromHexDig h2, fromHexDig h3, fromHexDig h4 with
      | some a, some b, some c, some d =>
        if 0xd800 ≤ 4096 * a + 256 * b + 16 * c + d ∧
            4096 * a + 256 * b + 16 * c + d ≤ 0xdbff then
          match r with
          | '\\' :: 'u' :: g1 :: g2 :: g3 :: g4 :: r2 =>
            match fromHexDig g1, fromHexDig g2, fromHexDig g3, fromHexDig g4 with
            | some a2, some b2, some c2, some d2 =>
              (unesc r2).map
                ((0x10000 + (4096 * a + 256 * b + 16 * c + d - 0xd800) * 0x400 +
                  (4096 * a2 + 256 * b2 + 16 * c2 + d2 - 0xdc00)) :: ·)
            | _, _, _, _ => none
          | _ => none
        else (unesc r).map ((4096 * a + 256 * b + 16 * c + d) :: ·)
      | _, _, _, _ => none
    | _ => none
  | c :: r => (unesc r).map (c.toNat :: ·)

set_option maxHeartbeats 1000000 in
/-- Decoding after encoding one character recovers its code point. -/
theorem unesc_escChar (c : Char) (rest : List Char) :
    unesc (escChar c ++ rest) = (unesc rest).map (fun l => c.toNat :: l) := by
  have hv : c.toNat < 0xd800 ∨ (0xdfff < c.toNat ∧ c.toNat < 0x110000) := c.valid
  rw [escChar]
  split_ifs with h1 h2 h3 h4 h5 h6 h7 h8 h9
  · subst h1
    simp only [List.cons_append, List.nil_append]
    simp [unesc]
  · subst h2
    simp only [List.cons_append, List.nil_append]
    simp [unesc]
  · subst h3
    simp only [List.cons_append, List.nil_append]
    simp [unesc]
  · subst h4
    simp only [List.cons_append, List.nil_append]
    simp [unesc]
  · subst h5
    simp only [List.cons_append, List.nil_append]
    simp [unesc]
  · simp only [List.cons_append, List.nil_append]
    simp [unesc, h6]
  · simp only [List.cons_append, List.nil_append]
    simp [unesc, h7]
  · simp only [List.cons_append, List.nil_append]
    simp [unesc, h2]
  · have e1 := fromHexDig_hexDig (c.toNat / 4096 % 16) (Nat.mod_lt _ (by norm_num))
    have e2 := fromHexDig_hexDig (c.toNat / 256 % 16) (Nat.mod_lt _ (by norm_num))
    have e3 := fromHexDig_hexDig (c.toNat / 16 % 16) (Nat.mod_lt _ (by norm_num))
    have e4 := fromHexDig_hexDig (c.toNat % 16) (Nat.mod_lt _ (by norm_num))
    have hvv : 4096 * (c.toNat / 4096 % 16) + 256 * (c.toNat / 256 % 16) +
        16 * (c.toNat / 16 % 16) + c.toNat % 16 = c.toNat := by omega
    have hsur : ¬(0xd800 ≤ c.toNat ∧ c.toNat ≤ 0xdbff) := by omega
    simp only [hex4, List.cons_append, List.nil_append]
    simp [unesc, e1, e2, e3, e4, hvv, hsur]
  · have hge : 0x10000 ≤ c.toNat := by omega
    have hlt : c.toNat < 0x110000 := by omega
    have e1 := fromHexDig_hexDig ((0xd800 + (c.toNat - 0x10000) / 0x400) / 4096 % 16)
      (Nat.mod_lt _ (by norm_num))
    have e2 := fromHexDig_hexDig ((0xd800 + (c.toNat - 0x10000) / 0x400) / 256 % 16)
      (Nat.mod_lt _ (by norm_num))
    have e3 := fromHexDig_hexDig ((0xd800 + (c.toNat - 0x10000) / 0x400) / 16 % 16)
      (Nat.mod_lt _ (by norm_num))
    have e4 := fromHexDig_hexDig ((0xd800 + (c.toNat - 0x10000) / 0x400) % 16)
      (Nat.mod_lt _ (by norm_num))
    have f1 := fromHexDig_hexDig ((0xdc00 + (c.toNat - 0x10000) % 0x400) / 4096 % 16)
      (Nat.mod_lt _ (by norm_num))
    have f2 := fromHexDig_hexDig ((0xdc00 + (c.toNat - 0x10000) % 0x400) / 256 % 16)
      (Nat.mod_lt _ (by norm_num))
    have f3 := fromHexDig_hexDig ((0xdc00 + (c.toNat - 0x10000) % 0x400) / 16 % 16)
      (Nat.mod_lt _ (by norm_num))
    have f4 := fromHexDig_hexDig ((0xdc00 + (c.toNat - 0x10000) % 0x400) % 16)
      (Nat.mod_lt _ (by norm_num))
    have hhi : 4096 * ((0xd800 + (c.toNat - 0x10000) / 0x400) / 4096 % 16) +
        256 * ((0xd800 + (c.toNat - 0x10000) / 0x400) / 256 % 16) +
        16 * ((0xd800 + (c.toNat - 0x10000) / 0x400) / 16 % 16) +
        (0xd800 + (c.toNat - 0x10000) / 0x400) % 16 =
        0xd800 + (c.toNat - 0x10000) / 0x400 := by omega
    have hlo : 4096 * ((0xdc00 + (c.toNat - 0x10000) % 0x400) / 4096 % 16) +
        256 * ((0xdc00 + (c.toNat - 0x10000) % 0x400) / 256 % 16) +
        16 * ((0xdc00 + (c.toNat - 0x10000) % 0x400) / 16 % 16) +
        (0xdc00 + (c.toNat - 0x10000) % 0x400) % 16 =
        0xdc00 + (c.toNat - 0x10000) % 0x400 := by omega
    have hsur : 0xd800 ≤ 0xd800 + (c.toNat - 0x10000) / 0x400 ∧
        0xd800 + (c.toNat - 0x10000) / 0x400 ≤ 0xdbff := by omega
    have hval : 0x10000 + (0xd800 + (c.toNat - 0x10000) / 0x400 - 0xd800) * 0x400 +
        (0xdc00 + (c.toNat - 0x10000) % 0x400 - 0xdc00) = c.toNat := by omega
    simp only [hex4, List.cons_append, List.nil_append, List.append_assoc]
    simp [unesc, e1, e2, e3, e4, f1, f2, f3, f4, hhi, hlo, hsur, hval]
    have hfin : 65536 + (c.toNat - 65536) / 1024 * 1024 + (c.toNat - 65536) % 1024 =
        c.toNat := by omega
    rw [hfin]

theorem unesc_escapeJson (l rest : List Char) :
    unesc (l.flatMap escChar ++ rest) =
      (unesc rest).map (fun t => l.map Char.toNat ++ t) := by
  induction l with
  | nil =>
    simp only [List.flatMap_nil, List.nil_append, List.map_nil]
    cases unesc rest <;> simp
  | cons c cs ih =>
    rw [List.flatMap_cons, List.append_assoc, unesc_escChar, ih]
    cases unesc rest <;> simp

theorem escapeJson_injective (a b : String) (h : escapeJson a = escapeJson b) :
    a = b := by
  have ha := unesc_escapeJson a.data []
  have hb := unesc_escapeJson b.data []
  rw [List.append_nil] at ha hb
  rw [show a.data.flatMap escChar = escapeJson a from rfl, h] at ha
  rw [show b.data.flatMap escChar = escapeJson b from rfl] at hb
  rw [hb] at ha
  rw [show unesc ([] : List Char) = some [] from rfl] at ha
  simp only [Option.map_some', List.append_nil, Option.some.injEq] at ha
  apply String.ext
  have hmap := congrArg (List.map Char.ofNat) ha
  simpa [List.map_map, Function.comp_def, Char.ofNat_toNat] using hmap.symm

theorem jsonDumpsName_data_inj (a b : String)
    (h : (jsonDumpsName a).data = (jsonDumpsName b).data) : a = b := by
  apply escapeJson_injective
  have h1 : "\x7b\"name\": \"".data ++ (escapeJson a ++ "\"\x7d".data) =
      "\x7b\"name\": \"".data ++ (escapeJson b ++ "\"\x7d".data) := by
    simpa [jsonDumpsName, List.append_assoc] using h
  exact List.append_cancel_right (List.append_cancel_left h1)

/-- The last line of a chunk of text. -/
def lastLine (l : List Char) : List Char :=
  (l.reverse.takeWhile (fun ch => ch != '\n')).reverse

theorem lastLine_append (a j : List Char) (hj : '\n' ∉ j) :
    lastLine (a ++ '\n' :: j) = j := by
  have hpos : ∀ x ∈ j.reverse, (x != '\n') = true := by
    intro x hx
    have hxj : x ∈ j := List.mem_reverse.1 hx
    simp only [bne_iff_ne, ne_eq]
    intro hcon
    exact hj (hcon ▸ hxj)
  rw [lastLine, List.reverse_append, List.reverse_cons, List.append_assoc,
    List.takeWhile_append_of_pos hpos, List.singleton_append,
    List.takeWhile_cons_of_neg (by simp), List.append_nil, List.reverse_reverse]

/-- The generated notes, split just before and just after the JSON line. -/
theorem mkNotes_data_split (d j : String) :
    (mkNotes d j).data =
      ((d.data ++ '\n' :: ('\n' :: ("Imported from GnuCash".data ++ '\n' ::
        ('\n' :: "--meta--".data)))) ++ '\n' :: j.data) ++
        ('\n' :: ("--meta-end--".data ++ ['\n'])) := by
  rw [mkNotes_data]
  simp only [List.append_assoc, List.cons_append, List.nil_append]

/-- Two generated notes agree only when the embedded qualified names
agree: the JSON line is the last line before the end-marker suffix. -/
theorem mkNotes_json_inj (d1 d2 nf1 nf2 : String)
    (h : mkNotes d1 (jsonDumpsName nf1) = mkNotes d2 (jsonDumpsName nf2)) :
    nf1 = nf2 := by
  have hd := congrArg String.data h
  rw [mkNotes_data_split, mkNotes_data_split] at hd
  have hx := List.append_cancel_right hd
  have h1 := lastLine_append (d1.data ++ '\n' :: ('\n' ::
    ("Imported from GnuCash".data ++ '\n' :: ('\n' :: "--meta--".data))))
    (jsonDumpsName nf1).data (newline_not_mem_jsonDumpsName nf1)
  have h2 := lastLine_append (d2.data ++ '\n' :: ('\n' ::
    ("Imported from GnuCash".data ++ '\n' :: ('\n' :: "--meta--".data))))
    (jsonDumpsName nf2).data (newline_not_mem_jsonDumpsName nf2)
  apply jsonDumpsName_data_inj
  rw [← h1, ← h2, hx]

/-! ### C7: the translation map is one-to-one -/

/-- The inductive invariant: the map's records carry the generated notes,
its keys stay pairwise distinct and fresh for the remaining rows; under it
the assertion cannot fire. -/
theorem convertAll_inv (l : List GCAccount) (st : TransMap)
    (hdist : l.Pairwise (fun a b => a.name_full ≠ b.name_full))
    (hnotes : ∀ p ∈ st, p.2.notes =
      some (mkNotes p.1.description (jsonDumpsName p.1.name_full)))
    (hfresh : ∀ p ∈ st, ∀ a ∈ l, p.1.name_full ≠ a.name_full)
    (hstdist : st.Pairwise (fun p q => p.1.name_full ≠ q.1.name_full)) :
    convertAll st l ≠ .error .assertionError ∧
    ∀ st', convertAll st l = .ok st' →
      (∀ p ∈ st', p.2.notes =
        some (mkNotes p.1.description (jsonDumpsName p.1.name_full))) ∧
      st'.Pairwise (fun p q => p.1.name_full ≠ q.1.name_full) := by
  induction l generalizing st with
  | nil =>
    constructor
    · simp [convertAll]
    · intro st' h
      rw [convertAll] at h
      injection h with h
      subst h
      exact ⟨hnotes, hstdist⟩
  | cons a as ih =>
    rcases convert_account_spec st a with ⟨e, he, hassert⟩ | hnone | ⟨f, hf, -, -, -, hfnotes⟩
    · have hcv : convertAll st (a :: as) = .error e := by
        rw [convertAll, he]
      constructor
      · rw [hcv]
        intro hcon
        injection hcon with hcon
        obtain ⟨p, hp, hpa⟩ := hassert hcon
        exact hfresh p hp a (List.mem_cons_self a as) (by rw [hpa])
      · intro st' h
        rw [hcv] at h
        simp at h
    · have hcv : convertAll st (a :: as) = convertAll st as := by
        rw [convertAll, hnone]
      rw [hcv]
      exact ih st hdist.of_cons hnotes
        (fun p hp b hb => hfresh p hp b (List.mem_cons_of_mem a hb)) hstdist
    · have hcv : convertAll st (a :: as) = convertAll (st ++ [(a, f)]) as := by
        rw [convertAll, hf]
      rw [hcv]
      apply ih (st ++ [(a, f)]) hdist.of_cons
      · intro p hp
        rcases List.mem_append.1 hp with hp | hp
        · exact hnotes p hp
        · rcases List.mem_singleton.1 hp with rfl
          exact hfnotes
      · intro p hp b hb
        rcases List.mem_append.1 hp with hp | hp
        · exact hfresh p hp b (List.mem_cons_of_mem a hb)
        · rcases List.mem_singleton.1 hp with rfl
          exact (List.pairwise_cons.1 hdist).1 b hb
      · rw [List.pairwise_append]
        refine ⟨hstdist, List.pairwise_singleton _ _, ?_⟩
        intro p hp q hq
        rcases List.mem_singleton.1 hq with rfl
        exact hfresh p hp a (List.mem_cons_self a as)

/-- C7: converting rows with pairwise distinct qualified names never fires
the duplicate-entry assertion, and the resulting translation map is
one-to-one — distinct keys are mapped to distinct records. -/
theorem convert_account_map_one_to_one (l : List GCAccount)
    (hdist : l.Pairwise (fun a b => a.name_full ≠ b.name_full)) :
    convertAll [] l ≠ .error .assertionError ∧
    ∀ st, convertAll [] l = .ok st →
      st.Pairwise (fun p q => p.1.name_full ≠ q.1.name_full) ∧
      ∀ p ∈ st, ∀ q ∈ st, p.1.name_full ≠ q.1.name_full → p.2 ≠ q.2 := by
  obtain ⟨hna, hok⟩ := convertAll_inv l [] hdist (by simp) (by simp) (by simp)
  refine ⟨hna, fun st h => ?_⟩
  obtain ⟨hnotes, hdist'⟩ := hok st h
  refine ⟨hdist', fun p hp q hq hne heq => ?_⟩
  have h1 := hnotes p hp
  have h2 := hnotes q hq
  rw [heq, h2] at h1
  injection h1 with h1
  exact hne (mkNotes_json_inj q.1.description p.1.description
    q.1.name_full p.1.name_full h1).symm

/-- A second concrete row with a different qualified name. -/
def expenseRow : GCAccount :=
  { type_ := "EXPENSE", name_full := "Expenses:Food", name := "Food",
    description := "", symbol := "EUR" }

/-- C7 witness: the two concrete rows have distinct qualified names, so
the assertion cannot fire and the map stays one-to-one. -/
theorem convert_account_map_one_to_one_witness :
    ([assetRow, expenseRow]).Pairwise (fun a b => a.name_full ≠ b.name_full) ∧
    (convertAll [] [assetRow, expenseRow] ≠ .error .assertionError ∧
     ∀ st, convertAll [] [assetRow, expenseRow] = .ok st →
       st.Pairwise (fun p q => p.1.name_full ≠ q.1.name_full) ∧
       ∀ p ∈ st, ∀ q ∈ st, p.1.name_full ≠ q.1.name_full → p.2 ≠ q.2) :=
  ⟨by decide, convert_account_map_one_to_one [assetRow, expenseRow] (by decide)⟩
